import Mathlib

/-!
Verification of the traj-estimator transform core.

The repository has two pipelines built on scipy's Rotation class:

* global_to_world.py : re-expresses a trajectory relative to its first pose
  (parse_pose, compute_relative_position, compute_relative_time,
  compute_relative_orientation, transform_data);
* transform_coordinates.py : composes each row's transform with the inverse of
  a fixed extrinsic transform (parse_pose, transformation_to_se3, invert_se3,
  multiply_se3, main).

We embed both over exact rationals.  scipy semantics used by the code:

* Rotation.from_quat normalizes its argument to unit norm; the rotation matrix
  of a quaternion q equals the standard quadratic formula divided by the
  squared norm of q (exactly the matrix of the normalized quaternion).
* Rotation.inv negates the SCALAR component of the stored quaternion, so the
  stored inverse is minus the conjugate: it represents the inverse rotation on
  the other sheet of the quaternion double cover, and the sign is observable
  through as_quat.
* Composition r1 * r2 multiplies the stored quaternions with the Hamilton
  product (scalar-last layout), matching matrix multiplication order.
* Rotation.apply multiplies the rotation matrix with the vector.
* Rotation.from_matrix / as_quat use the largest-component (Shepperd)
  reconstruction, with numpy argmax tie-breaking towards the first index,
  followed by normalization to unit norm.

Quaternion-valued outputs of the code are unit quaternions obtained by a final
normalization (division by a positive real norm).  Our embedding carries the
exact pre-normalization value; under the unit-norm hypotheses of the theorems
the pre-normalization value already has unit norm and equals the emitted one,
and concrete counterexamples record the positive rational scale explicitly.
-/

/-- Vector in three-dimensional rational space. -/
structure V3 where
  x : ℚ
  y : ℚ
  z : ℚ
  deriving DecidableEq

/-- Matrix with three rows and three columns, row-major fields. -/
structure M3 where
  a11 : ℚ
  a12 : ℚ
  a13 : ℚ
  a21 : ℚ
  a22 : ℚ
  a23 : ℚ
  a31 : ℚ
  a32 : ℚ
  a33 : ℚ
  deriving DecidableEq

/-- Quaternion in scipy's scalar-last layout (x, y, z, w). -/
structure Quat where
  x : ℚ
  y : ℚ
  z : ℚ
  w : ℚ
  deriving DecidableEq

def V3.sub (a b : V3) : V3 :=
  ⟨a.x - b.x, a.y - b.y, a.z - b.z⟩

def V3.neg (a : V3) : V3 :=
  ⟨-a.x, -a.y, -a.z⟩

def V3.zero : V3 :=
  ⟨0, 0, 0⟩

def M3.mul (a b : M3) : M3 :=
  ⟨a.a11 * b.a11 + a.a12 * b.a21 + a.a13 * b.a31,
   a.a11 * b.a12 + a.a12 * b.a22 + a.a13 * b.a32,
   a.a11 * b.a13 + a.a12 * b.a23 + a.a13 * b.a33,
   a.a21 * b.a11 + a.a22 * b.a21 + a.a23 * b.a31,
   a.a21 * b.a12 + a.a22 * b.a22 + a.a23 * b.a32,
   a.a21 * b.a13 + a.a22 * b.a23 + a.a23 * b.a33,
   a.a31 * b.a11 + a.a32 * b.a21 + a.a33 * b.a31,
   a.a31 * b.a12 + a.a32 * b.a22 + a.a33 * b.a32,
   a.a31 * b.a13 + a.a32 * b.a23 + a.a33 * b.a33⟩

def M3.transpose (a : M3) : M3 :=
  ⟨a.a11, a.a21, a.a31, a.a12, a.a22, a.a32, a.a13, a.a23, a.a33⟩

def M3.mulVec (a : M3) (v : V3) : V3 :=
  ⟨a.a11 * v.x + a.a12 * v.y + a.a13 * v.z,
   a.a21 * v.x + a.a22 * v.y + a.a23 * v.z,
   a.a31 * v.x + a.a32 * v.y + a.a33 * v.z⟩

def M3.smul (c : ℚ) (a : M3) : M3 :=
  ⟨c * a.a11, c * a.a12, c * a.a13, c * a.a21, c * a.a22, c * a.a23,
   c * a.a31, c * a.a32, c * a.a33⟩

def M3.one : M3 :=
  ⟨1, 0, 0, 0, 1, 0, 0, 0, 1⟩

def Quat.normSq (q : Quat) : ℚ :=
  q.x ^ 2 + q.y ^ 2 + q.z ^ 2 + q.w ^ 2

/-- Quaternion conjugate (the mathematical inverse of a unit quaternion).
This is the quantity the spec calls inverse(q). -/
def Quat.conj (q : Quat) : Quat :=
  ⟨-q.x, -q.y, -q.z, q.w⟩

/-- scipy's Rotation.inv negates the scalar (last) component of the stored
quaternion.  The result is minus the conjugate: it represents the same
inverse rotation, but the sign is observable in as_quat output. -/
def Quat.scipyInv (q : Quat) : Quat :=
  ⟨q.x, q.y, q.z, -q.w⟩

/-- Hamilton product in scalar-last layout, exactly scipy's compose_quat:
the vector part is pw·qv + qw·pv + pv × qv and the scalar part is
pw·qw − pv·qv. -/
def Quat.mul (p q : Quat) : Quat :=
  ⟨p.w * q.x + q.w * p.x + (p.y * q.z - p.z * q.y),
   p.w * q.y + q.w * p.y + (p.z * q.x - p.x * q.z),
   p.w * q.z + q.w * p.z + (p.x * q.y - p.y * q.x),
   p.w * q.w - p.x * q.x - p.y * q.y - p.z * q.z⟩

def Quat.smul (c : ℚ) (q : Quat) : Quat :=
  ⟨c * q.x, c * q.y, c * q.z, c * q.w⟩

/-- Numerator of the rotation matrix of a quaternion: the standard quadratic
conversion formula without the division by the squared norm. -/
def quatMatN (q : Quat) : M3 :=
  ⟨q.x ^ 2 - q.y ^ 2 - q.z ^ 2 + q.w ^ 2,
   2 * (q.x * q.y - q.z * q.w),
   2 * (q.x * q.z + q.y * q.w),
   2 * (q.x * q.y + q.z * q.w),
   -q.x ^ 2 + q.y ^ 2 - q.z ^ 2 + q.w ^ 2,
   2 * (q.y * q.z - q.x * q.w),
   2 * (q.x * q.z - q.y * q.w),
   2 * (q.y * q.z + q.x * q.w),
   -q.x ^ 2 - q.y ^ 2 + q.z ^ 2 + q.w ^ 2⟩

/-- Rotation matrix scipy associates with a quaternion: from_quat normalizes
the quaternion to unit norm, so the matrix is the quadratic formula divided by
the squared norm. -/
def Quat.toMatrix (q : Quat) : M3 :=
  M3.smul (1 / q.normSq) (quatMatN q)

theorem Quat.normSq_mul (p q : Quat) :
    (Quat.mul p q).normSq = p.normSq * q.normSq := by
  simp only [Quat.mul, Quat.normSq]
  ring

theorem Quat.normSq_conj (q : Quat) : q.conj.normSq = q.normSq := by
  simp only [Quat.conj, Quat.normSq]
  ring

theorem Quat.normSq_smul (c : ℚ) (q : Quat) :
    (Quat.smul c q).normSq = c ^ 2 * q.normSq := by
  simp only [Quat.smul, Quat.normSq]
  ring

/-- The numerator matrix is multiplicative: this is a polynomial identity that
needs no unit-norm assumption. -/
theorem quatMatN_mul (p q : Quat) :
    quatMatN (Quat.mul p q) = M3.mul (quatMatN p) (quatMatN q) := by
  simp only [quatMatN, Quat.mul, M3.mul, M3.mk.injEq]
  refine ⟨by ring, by ring, by ring, by ring, by ring, by ring, by ring, by ring, by ring⟩

/-- The numerator matrix of the conjugate is the transpose. -/
theorem quatMatN_conj (q : Quat) :
    quatMatN q.conj = (quatMatN q).transpose := by
  simp only [quatMatN, Quat.conj, M3.transpose, M3.mk.injEq]
  refine ⟨by ring, by ring, by ring, by ring, by ring, by ring, by ring, by ring, by ring⟩

theorem quatMatN_smul (c : ℚ) (q : Quat) :
    quatMatN (Quat.smul c q) = M3.smul (c ^ 2) (quatMatN q) := by
  simp only [quatMatN, Quat.smul, M3.smul, M3.mk.injEq]
  refine ⟨by ring, by ring, by ring, by ring, by ring, by ring, by ring, by ring, by ring⟩

theorem M3.smul_smul (c d : ℚ) (a : M3) :
    M3.smul c (M3.smul d a) = M3.smul (c * d) a := by
  simp only [M3.smul, M3.mk.injEq]
  refine ⟨by ring, by ring, by ring, by ring, by ring, by ring, by ring, by ring, by ring⟩

theorem M3.smul_one_q (a : M3) : M3.smul 1 a = a := by
  simp only [M3.smul]
  cases a
  simp

/-- The rotation matrix is invariant under nonzero rescaling of the
quaternion: this is exactly the effect of scipy's from_quat normalization. -/
theorem Quat.toMatrix_smul (c : ℚ) (hc : c ≠ 0) (q : Quat) :
    (Quat.smul c q).toMatrix = q.toMatrix := by
  unfold Quat.toMatrix
  rw [quatMatN_smul, Quat.normSq_smul, M3.smul_smul]
  by_cases hs : q.normSq = 0
  · rw [hs]
    norm_num
  · have : 1 / (c ^ 2 * q.normSq) * c ^ 2 = 1 / q.normSq := by
      field_simp
    rw [this]

theorem Quat.smul_one (q : Quat) : Quat.smul 1 q = q := by
  cases q
  simp only [Quat.smul, Quat.mk.injEq]
  refine ⟨by ring, by ring, by ring, by ring⟩

/-- The scipy inverse is minus the conjugate. -/
theorem Quat.scipyInv_eq (q : Quat) : q.scipyInv = Quat.smul (-1) q.conj := by
  simp only [Quat.scipyInv, Quat.conj, Quat.smul, Quat.mk.injEq]
  refine ⟨by ring, by ring, by ring, by ring⟩

theorem Quat.normSq_scipyInv (q : Quat) : q.scipyInv.normSq = q.normSq := by
  simp only [Quat.scipyInv, Quat.normSq]
  ring

theorem Quat.scipyInv_smul (c : ℚ) (q : Quat) :
    (Quat.smul c q).scipyInv = Quat.smul c q.scipyInv := by
  simp only [Quat.smul, Quat.scipyInv, Quat.mk.injEq]
  refine ⟨by ring, by ring, by ring, by ring⟩

/-- Minus the conjugate has the same rotation matrix as the conjugate: the
sign difference is invisible at the matrix level. -/
theorem Quat.toMatrix_scipyInv (q : Quat) :
    q.scipyInv.toMatrix = q.conj.toMatrix := by
  rw [Quat.scipyInv_eq, Quat.toMatrix_smul (-1) (by norm_num)]

/-- Multiplying by the scipy inverse flips the sign of multiplying by the
conjugate. -/
theorem Quat.mul_scipyInv (p q : Quat) :
    Quat.mul p q.scipyInv = Quat.smul (-1) (Quat.mul p q.conj) := by
  simp only [Quat.mul, Quat.scipyInv, Quat.conj, Quat.smul, Quat.mk.injEq]
  refine ⟨by ring, by ring, by ring, by ring⟩

/-- For a unit quaternion the rotation matrix is the bare quadratic formula. -/
theorem Quat.toMatrix_unit {q : Quat} (hq : q.normSq = 1) :
    q.toMatrix = quatMatN q := by
  unfold Quat.toMatrix
  rw [hq]
  norm_num [M3.smul_one_q]

/-- Unit quaternions map to multiplicative matrices. -/
theorem Quat.toMatrix_mul {p q : Quat} (hp : p.normSq = 1) (hq : q.normSq = 1) :
    (Quat.mul p q).toMatrix = M3.mul p.toMatrix q.toMatrix := by
  rw [Quat.toMatrix_unit (by rw [Quat.normSq_mul, hp, hq]; norm_num),
      Quat.toMatrix_unit hp, Quat.toMatrix_unit hq, quatMatN_mul]

/-- The matrix of the conjugate of a unit quaternion is the transpose. -/
theorem Quat.toMatrix_conj {q : Quat} (hq : q.normSq = 1) :
    q.conj.toMatrix = q.toMatrix.transpose := by
  rw [Quat.toMatrix_unit (by rw [Quat.normSq_conj, hq]),
      Quat.toMatrix_unit hq, quatMatN_conj]

/-- Product of a unit quaternion with its conjugate is the scalar-one
quaternion. -/
theorem Quat.mul_conj_unit {q : Quat} (hq : q.normSq = 1) :
    Quat.mul q q.conj = ⟨0, 0, 0, 1⟩ := by
  have hx : Quat.mul q q.conj = ⟨0, 0, 0, q.normSq⟩ := by
    simp only [Quat.mul, Quat.conj, Quat.normSq, Quat.mk.injEq]
    refine ⟨by ring, by ring, by ring, by ring⟩
  rw [hx, hq]

/-- Product of a unit quaternion with its scipy inverse is MINUS the
scalar-one quaternion: this sign is what the program emits. -/
theorem Quat.mul_scipyInv_unit {q : Quat} (hq : q.normSq = 1) :
    Quat.mul q q.scipyInv = ⟨0, 0, 0, -1⟩ := by
  have hx : Quat.mul q q.scipyInv = ⟨0, 0, 0, -q.normSq⟩ := by
    simp only [Quat.mul, Quat.scipyInv, Quat.normSq, Quat.mk.injEq]
    refine ⟨by ring, by ring, by ring, by ring⟩
  rw [hx, hq]

/-- The quadratic-formula matrix of the scalar-one quaternion is the identity
matrix. -/
theorem quatMatN_one : quatMatN ⟨0, 0, 0, 1⟩ = M3.one := by
  simp only [quatMatN, M3.one, M3.mk.injEq]
  norm_num

/-- Orthogonality: the matrix of a unit quaternion times its transpose is the
identity. -/
theorem Quat.toMatrix_mul_transpose {q : Quat} (hq : q.normSq = 1) :
    M3.mul q.toMatrix q.toMatrix.transpose = M3.one := by
  rw [← Quat.toMatrix_conj hq, ← Quat.toMatrix_mul hq (by rw [Quat.normSq_conj, hq]),
      Quat.mul_conj_unit hq, Quat.toMatrix_unit (by simp [Quat.normSq]), quatMatN_one]

/-- Largest-component (Shepperd) matrix-to-quaternion reconstruction, before
the final normalization, exactly as in scipy's from_matrix: the decision
vector is (a11, a22, a33, trace) and numpy argmax breaks ties towards the
first index. -/
def matrixToQuatRaw (m : M3) : Quat :=
  if m.a11 ≥ m.a22 ∧ m.a11 ≥ m.a33 ∧ m.a11 ≥ m.a11 + m.a22 + m.a33 then
    ⟨1 - (m.a11 + m.a22 + m.a33) + 2 * m.a11, m.a21 + m.a12, m.a31 + m.a13, m.a32 - m.a23⟩
  else if m.a22 ≥ m.a33 ∧ m.a22 ≥ m.a11 + m.a22 + m.a33 then
    ⟨m.a12 + m.a21, 1 - (m.a11 + m.a22 + m.a33) + 2 * m.a22, m.a32 + m.a23, m.a13 - m.a31⟩
  else if m.a33 ≥ m.a11 + m.a22 + m.a33 then
    ⟨m.a13 + m.a31, m.a23 + m.a32, 1 - (m.a11 + m.a22 + m.a33) + 2 * m.a33, m.a21 - m.a12⟩
  else
    ⟨m.a32 - m.a23, m.a13 - m.a31, m.a21 - m.a12, 1 + (m.a11 + m.a22 + m.a33)⟩

/-- On the matrix of a unit quaternion, the reconstruction returns a nonzero
rational multiple of that quaternion (the multiple is four times the branch
pivot). -/
theorem matrixToQuatRaw_scaled {q : Quat} (hq : q.normSq = 1) :
    ∃ c : ℚ, c ≠ 0 ∧ matrixToQuatRaw q.toMatrix = Quat.smul c q := by
  have hq' : q.x ^ 2 + q.y ^ 2 + q.z ^ 2 + q.w ^ 2 = 1 := hq
  rw [Quat.toMatrix_unit hq]
  simp only [matrixToQuatRaw, quatMatN]
  split_ifs with h0 h1 h2
  · obtain ⟨ha, hb, hc⟩ := h0
    refine ⟨4 * q.x, ?_, ?_⟩
    · intro h
      have hx : q.x = 0 := by linarith
      rw [hx] at ha hb hc hq'
      have hy : q.y ^ 2 = 0 := le_antisymm (by nlinarith) (sq_nonneg _)
      have hz : q.z ^ 2 = 0 := le_antisymm (by nlinarith) (sq_nonneg _)
      have hw : q.w ^ 2 = 0 := le_antisymm (by nlinarith) (sq_nonneg _)
      nlinarith
    · simp only [Quat.smul, Quat.mk.injEq]
      refine ⟨by linear_combination -hq', by ring, by ring, by ring⟩
  · obtain ⟨ha, hb⟩ := h1
    refine ⟨4 * q.y, ?_, ?_⟩
    · intro h
      have hy : q.y = 0 := by linarith
      rw [hy] at ha hb hq' h0
      have hz : q.z ^ 2 = 0 := le_antisymm (by nlinarith) (sq_nonneg _)
      have hw : q.w ^ 2 = 0 := le_antisymm (by nlinarith) (sq_nonneg _)
      exact h0 ⟨by nlinarith, by nlinarith, by nlinarith⟩
    · simp only [Quat.smul, Quat.mk.injEq]
      refine ⟨by ring, by linear_combination -hq', by ring, by ring⟩
  · refine ⟨4 * q.z, ?_, ?_⟩
    · intro h
      have hz : q.z = 0 := by linarith
      rw [hz] at h2 hq' h1
      have hw : q.w ^ 2 = 0 := le_antisymm (by nlinarith) (sq_nonneg _)
      exact h1 ⟨by nlinarith, by nlinarith⟩
    · simp only [Quat.smul, Quat.mk.injEq]
      refine ⟨by ring, by ring, by linear_combination -hq', by ring⟩
  · refine ⟨4 * q.w, ?_, ?_⟩
    · intro h
      have hw : q.w = 0 := by linarith
      rw [hw] at h2
      have := sq_nonneg q.z
      exact h2 (by nlinarith)
    · simp only [Quat.smul, Quat.mk.injEq]
      refine ⟨by ring, by ring, by ring, by linear_combination -hq'⟩

/-- Round trip: converting the matrix of a unit quaternion back to a
quaternion yields a quaternion representing the same rotation. -/
theorem toMatrix_matrixToQuatRaw {q : Quat} (hq : q.normSq = 1) :
    (matrixToQuatRaw q.toMatrix).toMatrix = q.toMatrix := by
  obtain ⟨c, hc, hraw⟩ := matrixToQuatRaw_scaled hq
  rw [hraw, Quat.toMatrix_smul c hc]

/-- Homogeneous 4 by 4 matrix, row-major fields. -/
structure M4 where
  b11 : ℚ
  b12 : ℚ
  b13 : ℚ
  b14 : ℚ
  b21 : ℚ
  b22 : ℚ
  b23 : ℚ
  b24 : ℚ
  b31 : ℚ
  b32 : ℚ
  b33 : ℚ
  b34 : ℚ
  b41 : ℚ
  b42 : ℚ
  b43 : ℚ
  b44 : ℚ
  deriving DecidableEq

/-- Rotation block, rows and columns one to three. -/
def M4.rotBlock (m : M4) : M3 :=
  ⟨m.b11, m.b12, m.b13, m.b21, m.b22, m.b23, m.b31, m.b32, m.b33⟩

/-- Translation block, the first three entries of the last column. -/
def M4.transBlock (m : M4) : V3 :=
  ⟨m.b14, m.b24, m.b34⟩

/-- transformation_to_se3 from transform_coordinates.py: start from the
identity, overwrite the rotation block and the translation column; the bottom
row stays (0, 0, 0, 1). -/
def transformation_to_se3 (t : V3) (r : M3) : M4 :=
  ⟨r.a11, r.a12, r.a13, t.x,
   r.a21, r.a22, r.a23, t.y,
   r.a31, r.a32, r.a33, t.z,
   0, 0, 0, 1⟩

/-- invert_se3 from transform_coordinates.py: transpose the rotation block,
apply the negated transpose to the translation, reassemble. -/
def invert_se3 (m : M4) : M4 :=
  transformation_to_se3 (V3.neg (M3.mulVec (M3.transpose m.rotBlock) m.transBlock))
    (M3.transpose m.rotBlock)

/-- Full 4 by 4 matrix product, multiply_se3 from transform_coordinates.py. -/
def multiply_se3 (a b : M4) : M4 :=
  ⟨a.b11 * b.b11 + a.b12 * b.b21 + a.b13 * b.b31 + a.b14 * b.b41,
   a.b11 * b.b12 + a.b12 * b.b22 + a.b13 * b.b32 + a.b14 * b.b42,
   a.b11 * b.b13 + a.b12 * b.b23 + a.b13 * b.b33 + a.b14 * b.b43,
   a.b11 * b.b14 + a.b12 * b.b24 + a.b13 * b.b34 + a.b14 * b.b44,
   a.b21 * b.b11 + a.b22 * b.b21 + a.b23 * b.b31 + a.b24 * b.b41,
   a.b21 * b.b12 + a.b22 * b.b22 + a.b23 * b.b32 + a.b24 * b.b42,
   a.b21 * b.b13 + a.b22 * b.b23 + a.b23 * b.b33 + a.b24 * b.b43,
   a.b21 * b.b14 + a.b22 * b.b24 + a.b23 * b.b34 + a.b24 * b.b44,
   a.b31 * b.b11 + a.b32 * b.b21 + a.b33 * b.b31 + a.b34 * b.b41,
   a.b31 * b.b12 + a.b32 * b.b22 + a.b33 * b.b32 + a.b34 * b.b42,
   a.b31 * b.b13 + a.b32 * b.b23 + a.b33 * b.b33 + a.b34 * b.b43,
   a.b31 * b.b14 + a.b32 * b.b24 + a.b33 * b.b34 + a.b34 * b.b44,
   a.b41 * b.b11 + a.b42 * b.b21 + a.b43 * b.b31 + a.b44 * b.b41,
   a.b41 * b.b12 + a.b42 * b.b22 + a.b43 * b.b32 + a.b44 * b.b42,
   a.b41 * b.b13 + a.b42 * b.b23 + a.b43 * b.b33 + a.b44 * b.b43,
   a.b41 * b.b14 + a.b42 * b.b24 + a.b43 * b.b34 + a.b44 * b.b44⟩

/-- Hardcoded extrinsic constant from the main function of
transform_coordinates.py. -/
def hardcodedCTB : M4 :=
  transformation_to_se3 ⟨-19978 / 1000000, -75000 / 1000000, -36192 / 1000000⟩
    ⟨999168 / 1000000, -40781 / 1000000, 593 / 1000000,
     -40781 / 1000000, -999168 / 1000000, 0,
     592 / 1000000, -24 / 1000000, -1000000 / 1000000⟩

/-- Composing two transforms built by transformation_to_se3 multiplies the
rotation blocks and applies the first transform to the second translation. -/
theorem multiply_se3_to_se3 (t1 t2 : V3) (r1 r2 : M3) :
    multiply_se3 (transformation_to_se3 t1 r1) (transformation_to_se3 t2 r2) =
      transformation_to_se3
        ⟨r1.a11 * t2.x + r1.a12 * t2.y + r1.a13 * t2.z + t1.x,
         r1.a21 * t2.x + r1.a22 * t2.y + r1.a23 * t2.z + t1.y,
         r1.a31 * t2.x + r1.a32 * t2.y + r1.a33 * t2.z + t1.z⟩
        (M3.mul r1 r2) := by
  simp only [multiply_se3, transformation_to_se3, M3.mul, M4.mk.injEq]
  norm_num

theorem rotBlock_to_se3 (t : V3) (r : M3) :
    (transformation_to_se3 t r).rotBlock = r := by
  cases r
  simp [transformation_to_se3, M4.rotBlock]

theorem transBlock_to_se3 (t : V3) (r : M3) :
    (transformation_to_se3 t r).transBlock = t := by
  cases t
  simp [transformation_to_se3, M4.transBlock]

/-- The identity transform, and the fact that invert_se3 maps it to itself. -/
def idSE3 : M4 :=
  transformation_to_se3 V3.zero M3.one

theorem invert_se3_id : invert_se3 idSE3 = idSE3 := by
  simp only [invert_se3, idSE3, transformation_to_se3, V3.zero, V3.neg, M3.one,
    M4.rotBlock, M4.transBlock, M3.transpose, M3.mulVec, M4.mk.injEq]
  norm_num

theorem multiply_se3_id (m : M4) : multiply_se3 m idSE3 = m := by
  simp only [multiply_se3, idSE3, transformation_to_se3, V3.zero, M3.one, M4.mk.injEq]
  cases m
  norm_num

/-- Extraction of the tokens at the given column indices, as in the Python
list comprehensions; any out-of-range index raises, which we model as none. -/
def getCols (row : List ℚ) (cols : List ℕ) : Option (List ℚ) :=
  match cols with
  | [] => some []
  | i :: rest =>
    match row[i]?, getCols row rest with
    | some v, some vs => some (v :: vs)
    | _, _ => none

/-- parse_pose from global_to_world.py.  It returns the time token, the
position tokens and the orientation tokens; the quat and euler branches are
identical (both just build the raw array) and no count check is performed on
the orientation indices.  Unknown format tags raise ValueError. -/
def gtwParsePose (row : List ℚ) (timeCol : ℕ) (posCols orientCols : List ℕ)
    (fmt : String) : Option (ℚ × List ℚ × List ℚ) :=
  match row[timeCol]? with
  | none => none
  | some t =>
    match getCols row posCols with
    | none => none
    | some pos =>
      if fmt = "quat" then
        match getCols row orientCols with
        | none => none
        | some ori => some (t, pos, ori)
      else if fmt = "euler" then
        match getCols row orientCols with
        | none => none
        | some ori => some (t, pos, ori)
      else none

/-- compute_relative_position from global_to_world.py: scipy builds the
rotation of the origin quaternion, inverts it (negating the stored scalar
component) and applies its matrix to the global offset.  The sign of the
stored inverse is invisible here because apply goes through the matrix. -/
def compute_relative_position (current origin : V3) (originQuat : Quat) : V3 :=
  M3.mulVec (Quat.toMatrix originQuat.scipyInv) (V3.sub current origin)

/-- compute_relative_time from global_to_world.py: the function receives the
origin time but returns the current time unchanged. -/
def compute_relative_time (currentTime originTime : ℚ) : ℚ :=
  currentTime

/-- Quaternion branch of compute_relative_orientation from global_to_world.py:
the relative rotation is current times Rotation.inv of origin, and scipy's
inv negates the scalar component of the stored quaternion (minus the
conjugate).  The value carried here is the exact Hamilton product of the
stored quaternions, which scipy divides by its (positive) norm before
returning it from as_quat. -/
def compute_relative_orientation_q (currentQuat originQuat : Quat) : Quat :=
  Quat.mul currentQuat originQuat.scipyInv

/-- One iteration of the loop in transform_data (quaternion format): parse the
row, then compute relative time, position and orientation against the first
row's pose.  scipy's from_quat raises unless the orientation array has exactly
four entries, and apply requires a three-vector, which the match models. -/
def gtwRowQuat (t0 : ℚ) (pos0 ori0 : List ℚ) (timeCol : ℕ)
    (posCols orientCols : List ℕ) (row : List ℚ) : Option (List ℚ) :=
  match gtwParsePose row timeCol posCols orientCols "quat" with
  | none => none
  | some (t, pos, ori) =>
    match pos0, ori0, pos, ori with
    | [ax, ay, az], [q0x, q0y, q0z, q0w], [px, py, pz], [qx, qy, qz, qw] =>
      some [compute_relative_time t t0,
        (compute_relative_position ⟨px, py, pz⟩ ⟨ax, ay, az⟩ ⟨q0x, q0y, q0z, q0w⟩).x,
        (compute_relative_position ⟨px, py, pz⟩ ⟨ax, ay, az⟩ ⟨q0x, q0y, q0z, q0w⟩).y,
        (compute_relative_position ⟨px, py, pz⟩ ⟨ax, ay, az⟩ ⟨q0x, q0y, q0z, q0w⟩).z,
        (compute_relative_orientation_q ⟨qx, qy, qz, qw⟩ ⟨q0x, q0y, q0z, q0w⟩).x,
        (compute_relative_orientation_q ⟨qx, qy, qz, qw⟩ ⟨q0x, q0y, q0z, q0w⟩).y,
        (compute_relative_orientation_q ⟨qx, qy, qz, qw⟩ ⟨q0x, q0y, q0z, q0w⟩).z,
        (compute_relative_orientation_q ⟨qx, qy, qz, qw⟩ ⟨q0x, q0y, q0z, q0w⟩).w]
    | _, _, _, _ => none

/-- The loop over all rows of transform_data; an exception in any row aborts
the whole conversion. -/
def gtwLoop (t0 : ℚ) (pos0 ori0 : List ℚ) (timeCol : ℕ)
    (posCols orientCols : List ℕ) : List (List ℚ) → Option (List (List ℚ))
  | [] => some []
  | row :: rest =>
    match gtwRowQuat t0 pos0 ori0 timeCol posCols orientCols row,
        gtwLoop t0 pos0 ori0 timeCol posCols orientCols rest with
    | some r, some rs => some (r :: rs)
    | _, _ => none

/-- transform_data from global_to_world.py in quaternion format: take the
first row as reference (data with no rows raises IndexError, modelled as
none), parse it, then run the loop over every row including the first. -/
def transform_data (data : List (List ℚ)) (timeCol : ℕ)
    (posCols orientCols : List ℕ) : Option (List (List ℚ)) :=
  match data with
  | [] => none
  | first :: _ =>
    match gtwParsePose first timeCol posCols orientCols "quat" with
    | none => none
    | some (t0, pos0, ori0) => gtwLoop t0 pos0 ori0 timeCol posCols orientCols data

/-- Canonical input row layout: time, translation, quaternion. -/
def mkRow (t : ℚ) (p : V3) (q : Quat) : List ℚ :=
  [t, p.x, p.y, p.z, q.x, q.y, q.z, q.w]

/-- Expected output row of the relativizer for a pose against the reference. -/
def relRow (p0 : V3) (q0 : Quat) (P : ℚ × V3 × Quat) : List ℚ :=
  [P.1,
   (compute_relative_position P.2.1 p0 q0).x,
   (compute_relative_position P.2.1 p0 q0).y,
   (compute_relative_position P.2.1 p0 q0).z,
   (compute_relative_orientation_q P.2.2 q0).x,
   (compute_relative_orientation_q P.2.2 q0).y,
   (compute_relative_orientation_q P.2.2 q0).z,
   (compute_relative_orientation_q P.2.2 q0).w]

def rowTime (r : List ℚ) : ℚ :=
  r.getD 0 0

def rowTrans (r : List ℚ) : V3 :=
  ⟨r.getD 1 0, r.getD 2 0, r.getD 3 0⟩

def rowQuat (r : List ℚ) : Quat :=
  ⟨r.getD 4 0, r.getD 5 0, r.getD 6 0, r.getD 7 0⟩

theorem gtwParsePose_mkRow (t : ℚ) (p : V3) (q : Quat) :
    gtwParsePose (mkRow t p q) 0 [1, 2, 3] [4, 5, 6, 7] "quat" =
      some (t, [p.x, p.y, p.z], [q.x, q.y, q.z, q.w]) :=
  rfl

theorem gtwRowQuat_mkRow (t0 : ℚ) (p0 : V3) (q0 : Quat) (P : ℚ × V3 × Quat) :
    gtwRowQuat t0 [p0.x, p0.y, p0.z] [q0.x, q0.y, q0.z, q0.w] 0 [1, 2, 3]
        [4, 5, 6, 7] (mkRow P.1 P.2.1 P.2.2) = some (relRow p0 q0 P) :=
  rfl

theorem gtwLoop_mkRows (t0 : ℚ) (p0 : V3) (q0 : Quat)
    (ps : List (ℚ × V3 × Quat)) :
    gtwLoop t0 [p0.x, p0.y, p0.z] [q0.x, q0.y, q0.z, q0.w] 0 [1, 2, 3]
        [4, 5, 6, 7] (ps.map fun P => mkRow P.1 P.2.1 P.2.2) =
      some (ps.map (relRow p0 q0)) := by
  induction ps with
  | nil => rfl
  | cons P rest ih =>
    simp only [List.map_cons, gtwLoop, gtwRowQuat_mkRow, ih]

/-- Master run lemma: on a nonempty canonical trajectory the relativizer
succeeds and maps every pose to its relative row against the first pose. -/
theorem transform_data_mkRows (P0 : ℚ × V3 × Quat)
    (rest : List (ℚ × V3 × Quat)) :
    transform_data ((P0 :: rest).map fun P => mkRow P.1 P.2.1 P.2.2) 0
        [1, 2, 3] [4, 5, 6, 7] =
      some ((P0 :: rest).map (relRow P0.2.1 P0.2.2)) := by
  have h := gtwLoop_mkRows P0.1 P0.2.1 P0.2.2 (P0 :: rest)
  simp only [List.map_cons] at h ⊢
  simp only [transform_data, gtwParsePose_mkRow, h]

/-- parse_pose from transform_coordinates.py.  The quaternion branch unpacks
exactly four orientation tokens (a mismatched count raises at the unpacking,
before any pose is produced) and converts them to a rotation matrix; the
euler branch unpacks exactly three and converts via from_euler with radians.
The trigonometric euler conversion is kept as the parameter eulerM, since
every result proved below holds for any such function. -/
def tcParsePose (eulerM : ℚ → ℚ → ℚ → M3) (row : List ℚ) (timeCol : ℕ)
    (posCols orientCols : List ℕ) (fmt : String) : Option (ℚ × List ℚ × M3) :=
  match row[timeCol]? with
  | none => none
  | some t =>
    match getCols row posCols with
    | none => none
    | some pos =>
      if fmt = "quat" then
        match getCols row orientCols with
        | none => none
        | some ori =>
          match ori with
          | [qx, qy, qz, qw] => some (t, pos, Quat.toMatrix ⟨qx, qy, qz, qw⟩)
          | _ => none
      else if fmt = "euler" then
        match getCols row orientCols with
        | none => none
        | some ori =>
          match ori with
          | [r, p, y] => some (t, pos, eulerM r p y)
          | _ => none
      else none

/-- One iteration of the loop in the main function of
transform_coordinates.py: parse the row, assemble the SE(3) transform,
multiply with the precomputed inverse extrinsic, then emit time, the
translation block and the reconstructed quaternion of the rotation block. -/
def tcRow (eulerM : ℚ → ℚ → ℚ → M3) (ctbInv : M4) (timeCol : ℕ)
    (posCols orientCols : List ℕ) (fmt : String) (row : List ℚ) :
    Option (List ℚ) :=
  match tcParsePose eulerM row timeCol posCols orientCols fmt with
  | none => none
  | some (t, pos, rot) =>
    match pos with
    | [px, py, pz] =>
      some [t,
        (multiply_se3 (transformation_to_se3 ⟨px, py, pz⟩ rot) ctbInv).transBlock.x,
        (multiply_se3 (transformation_to_se3 ⟨px, py, pz⟩ rot) ctbInv).transBlock.y,
        (multiply_se3 (transformation_to_se3 ⟨px, py, pz⟩ rot) ctbInv).transBlock.z,
        (matrixToQuatRaw (multiply_se3 (transformation_to_se3 ⟨px, py, pz⟩ rot) ctbInv).rotBlock).x,
        (matrixToQuatRaw (multiply_se3 (transformation_to_se3 ⟨px, py, pz⟩ rot) ctbInv).rotBlock).y,
        (matrixToQuatRaw (multiply_se3 (transformation_to_se3 ⟨px, py, pz⟩ rot) ctbInv).rotBlock).z,
        (matrixToQuatRaw (multiply_se3 (transformation_to_se3 ⟨px, py, pz⟩ rot) ctbInv).rotBlock).w]
    | _ => none

def tcLoop (eulerM : ℚ → ℚ → ℚ → M3) (ctbInv : M4) (timeCol : ℕ)
    (posCols orientCols : List ℕ) (fmt : String) :
    List (List ℚ) → Option (List (List ℚ))
  | [] => some []
  | row :: rest =>
    match tcRow eulerM ctbInv timeCol posCols orientCols fmt row,
        tcLoop eulerM ctbInv timeCol posCols orientCols fmt rest with
    | some r, some rs => some (r :: rs)
    | _, _ => none

/-- Core of the main function of transform_coordinates.py: the inverse of the
extrinsic constant is computed once and reused for every row.  The source
hardcodes the constant hardcodedCTB; we expose it as an argument. -/
def tcMain (eulerM : ℚ → ℚ → ℚ → M3) (ctb : M4) (data : List (List ℚ))
    (timeCol : ℕ) (posCols orientCols : List ℕ) (fmt : String) :
    Option (List (List ℚ)) :=
  tcLoop eulerM (invert_se3 ctb) timeCol posCols orientCols fmt data

/-- Expected output row of the extrinsic compositor for one pose. -/
def tcOutRow (ctbInv : M4) (P : ℚ × V3 × Quat) : List ℚ :=
  [P.1,
   (multiply_se3 (transformation_to_se3 P.2.1 (Quat.toMatrix P.2.2)) ctbInv).transBlock.x,
   (multiply_se3 (transformation_to_se3 P.2.1 (Quat.toMatrix P.2.2)) ctbInv).transBlock.y,
   (multiply_se3 (transformation_to_se3 P.2.1 (Quat.toMatrix P.2.2)) ctbInv).transBlock.z,
   (matrixToQuatRaw (multiply_se3 (transformation_to_se3 P.2.1 (Quat.toMatrix P.2.2)) ctbInv).rotBlock).x,
   (matrixToQuatRaw (multiply_se3 (transformation_to_se3 P.2.1 (Quat.toMatrix P.2.2)) ctbInv).rotBlock).y,
   (matrixToQuatRaw (multiply_se3 (transformation_to_se3 P.2.1 (Quat.toMatrix P.2.2)) ctbInv).rotBlock).z,
   (matrixToQuatRaw (multiply_se3 (transformation_to_se3 P.2.1 (Quat.toMatrix P.2.2)) ctbInv).rotBlock).w]

theorem tcParsePose_mkRow (eulerM : ℚ → ℚ → ℚ → M3) (t : ℚ) (p : V3) (q : Quat) :
    tcParsePose eulerM (mkRow t p q) 0 [1, 2, 3] [4, 5, 6, 7] "quat" =
      some (t, [p.x, p.y, p.z], Quat.toMatrix q) :=
  rfl

theorem tcRow_mkRow (eulerM : ℚ → ℚ → ℚ → M3) (ctbInv : M4)
    (P : ℚ × V3 × Quat) :
    tcRow eulerM ctbInv 0 [1, 2, 3] [4, 5, 6, 7] "quat" (mkRow P.1 P.2.1 P.2.2) =
      some (tcOutRow ctbInv P) :=
  rfl

/-- Master run lemma for the extrinsic compositor on canonical quaternion
rows. -/
theorem tcMain_mkRows (eulerM : ℚ → ℚ → ℚ → M3) (ctb : M4)
    (ps : List (ℚ × V3 × Quat)) :
    tcMain eulerM ctb (ps.map fun P => mkRow P.1 P.2.1 P.2.2) 0 [1, 2, 3]
        [4, 5, 6, 7] "quat" =
      some (ps.map (tcOutRow (invert_se3 ctb))) := by
  unfold tcMain
  induction ps with
  | nil => rfl
  | cons P rest ih =>
    simp only [List.map_cons, tcLoop, tcRow_mkRow, ih]

/-- Real 3 by 3 matrix for the trigonometric euler conversions. -/
structure M3R where
  a11 : ℝ
  a12 : ℝ
  a13 : ℝ
  a21 : ℝ
  a22 : ℝ
  a23 : ℝ
  a31 : ℝ
  a32 : ℝ
  a33 : ℝ

def M3R.mul (a b : M3R) : M3R :=
  ⟨a.a11 * b.a11 + a.a12 * b.a21 + a.a13 * b.a31,
   a.a11 * b.a12 + a.a12 * b.a22 + a.a13 * b.a32,
   a.a11 * b.a13 + a.a12 * b.a23 + a.a13 * b.a33,
   a.a21 * b.a11 + a.a22 * b.a21 + a.a23 * b.a31,
   a.a21 * b.a12 + a.a22 * b.a22 + a.a23 * b.a32,
   a.a21 * b.a13 + a.a22 * b.a23 + a.a23 * b.a33,
   a.a31 * b.a11 + a.a32 * b.a21 + a.a33 * b.a31,
   a.a31 * b.a12 + a.a32 * b.a22 + a.a33 * b.a32,
   a.a31 * b.a13 + a.a32 * b.a23 + a.a33 * b.a33⟩

noncomputable def rotXR (t : ℝ) : M3R :=
  ⟨1, 0, 0, 0, Real.cos t, -Real.sin t, 0, Real.sin t, Real.cos t⟩

noncomputable def rotYR (t : ℝ) : M3R :=
  ⟨Real.cos t, 0, Real.sin t, 0, 1, 0, -Real.sin t, 0, Real.cos t⟩

noncomputable def rotZR (t : ℝ) : M3R :=
  ⟨Real.cos t, -Real.sin t, 0, Real.sin t, Real.cos t, 0, 0, 0, 1⟩

/-- scipy's from_euler for the lowercase extrinsic sequence xyz: rotate about
the global X axis by roll, then Y by pitch, then Z by yaw, so the matrix is
Rz(yaw) Ry(pitch) Rx(roll); when the degrees flag is set the angles are
multiplied by pi over 180 first. -/
noncomputable def from_euler_xyz (roll pitch yaw : ℝ) (degrees : Bool) : M3R :=
  M3R.mul (rotZR (if degrees then yaw * Real.pi / 180 else yaw))
    (M3R.mul (rotYR (if degrees then pitch * Real.pi / 180 else pitch))
      (rotXR (if degrees then roll * Real.pi / 180 else roll)))

/-- Rotation obtained by the trajectory relativizer from an euler-encoded row:
transform_data calls from_euler with degrees set to True. -/
noncomputable def gtwEulerIngest (roll pitch yaw : ℚ) : M3R :=
  from_euler_xyz roll pitch yaw true

/-- Rotation obtained by the extrinsic compositor's parser from the same
euler-encoded row: parse_pose calls from_euler with degrees set to False. -/
noncomputable def tcEulerIngest (roll pitch yaw : ℚ) : M3R :=
  from_euler_xyz roll pitch yaw false

/-- Explicit entries of the extrinsic-xyz euler matrix Rz(yaw) Ry(pitch)
Rx(roll). -/
noncomputable def eulerXYZMat (r p y : ℝ) : M3R :=
  ⟨Real.cos y * Real.cos p,
   Real.cos y * Real.sin p * Real.sin r - Real.sin y * Real.cos r,
   Real.cos y * Real.sin p * Real.cos r + Real.sin y * Real.sin r,
   Real.sin y * Real.cos p,
   Real.sin y * Real.sin p * Real.sin r + Real.cos y * Real.cos r,
   Real.sin y * Real.sin p * Real.cos r - Real.cos y * Real.sin r,
   -Real.sin p,
   Real.cos p * Real.sin r,
   Real.cos p * Real.cos r⟩

theorem gtwEulerIngest_eq (r p y : ℚ) :
    gtwEulerIngest r p y = eulerXYZMat ((r : ℝ) * Real.pi / 180)
      ((p : ℝ) * Real.pi / 180) ((y : ℝ) * Real.pi / 180) := by
  show M3R.mul (rotZR ((y : ℝ) * Real.pi / 180))
      (M3R.mul (rotYR ((p : ℝ) * Real.pi / 180)) (rotXR ((r : ℝ) * Real.pi / 180))) =
    eulerXYZMat ((r : ℝ) * Real.pi / 180) ((p : ℝ) * Real.pi / 180)
      ((y : ℝ) * Real.pi / 180)
  simp only [rotXR, rotYR, rotZR, M3R.mul, eulerXYZMat, M3R.mk.injEq]
  refine ⟨by ring, by ring, by ring, by ring, by ring, by ring, by ring, by ring, by ring⟩

theorem tcEulerIngest_eq (r p y : ℚ) :
    tcEulerIngest r p y = eulerXYZMat (r : ℝ) (p : ℝ) (y : ℝ) := by
  show M3R.mul (rotZR (y : ℝ)) (M3R.mul (rotYR (p : ℝ)) (rotXR (r : ℝ))) =
    eulerXYZMat (r : ℝ) (p : ℝ) (y : ℝ)
  simp only [rotXR, rotYR, rotZR, M3R.mul, eulerXYZMat, M3R.mk.injEq]
  refine ⟨by ring, by ring, by ring, by ring, by ring, by ring, by ring, by ring, by ring⟩

/-- Euler branch of compute_relative_orientation from global_to_world.py:
as_euler('xyz', degrees=True) computes the euler angles of the relative
rotation in radians and multiplies them by 180 over pi (scipy's rad2deg step);
the transcendental radian extraction is kept as the parameter asEulerRad. -/
noncomputable def compute_relative_orientation_euler
    (asEulerRad : Quat → ℝ × ℝ × ℝ) (currentQuat originQuat : Quat) :
    ℝ × ℝ × ℝ :=
  ((asEulerRad (compute_relative_orientation_q currentQuat originQuat)).1 * 180 / Real.pi,
   (asEulerRad (compute_relative_orientation_q currentQuat originQuat)).2.1 * 180 / Real.pi,
   (asEulerRad (compute_relative_orientation_q currentQuat originQuat)).2.2 * 180 / Real.pi)

/-- Any product of pi with a rational that lands on a rational forces both
sides to vanish, by the irrationality of pi. -/
theorem pi_rational_combo {c q : ℚ} (h : Real.pi * (c : ℝ) = (q : ℝ)) :
    c = 0 ∧ q = 0 := by
  by_cases hc : c = 0
  · refine ⟨hc, ?_⟩
    rw [hc] at h
    push_cast at h
    rw [mul_zero] at h
    exact_mod_cast h.symm
  · exfalso
    have hcR : (c : ℝ) ≠ 0 := by exact_mod_cast hc
    have hqq : Real.pi = ((q / c : ℚ) : ℝ) := by
      push_cast
      rw [eq_div_iff hcR]
      exact h
    exact irrational_pi ⟨_, hqq.symm⟩

/-- A rational angle whose degree reading and radian reading have equal cosine
and equal sine must be zero. -/
theorem deg_rad_angle_eq {a : ℚ}
    (hc : Real.cos ((a : ℝ) * Real.pi / 180) = Real.cos (a : ℝ))
    (hs : Real.sin ((a : ℝ) * Real.pi / 180) = Real.sin (a : ℝ)) : a = 0 := by
  have hone : Real.cos ((a : ℝ) * Real.pi / 180 - (a : ℝ)) = 1 := by
    rw [Real.cos_sub, hc, hs]
    linear_combination Real.sin_sq_add_cos_sq (a : ℝ)
  obtain ⟨n, hn⟩ := (Real.cos_eq_one_iff _).mp hone
  have hpi : Real.pi * ((a : ℝ) / 180 - 2 * (n : ℝ)) = (a : ℝ) := by
    linear_combination -hn
  exact (@pi_rational_combo (a / 180 - 2 * (n : ℚ)) a (by push_cast; exact hpi)).2

/-- No rational angle has its degree reading supplementary (cosine negated,
sine equal) to its radian reading. -/
theorem deg_rad_angle_sup {p : ℚ}
    (hc : Real.cos ((p : ℝ) * Real.pi / 180) = -Real.cos (p : ℝ))
    (hs : Real.sin ((p : ℝ) * Real.pi / 180) = Real.sin (p : ℝ)) : False := by
  have hm : Real.cos ((p : ℝ) * Real.pi / 180 + (p : ℝ)) = -1 := by
    rw [Real.cos_add, hc, hs]
    linear_combination -Real.sin_sq_add_cos_sq (p : ℝ)
  have hone : Real.cos ((p : ℝ) * Real.pi / 180 + (p : ℝ) - Real.pi) = 1 := by
    rw [Real.cos_sub_pi, hm]
    norm_num
  obtain ⟨n, hn⟩ := (Real.cos_eq_one_iff _).mp hone
  have hpi : Real.pi * ((p : ℝ) / 180 - 1 - 2 * (n : ℝ)) = -(p : ℝ) := by
    linear_combination -hn
  have hcombo := @pi_rational_combo (p / 180 - 1 - 2 * (n : ℚ)) (-p) (by push_cast; exact hpi)
  have hp0 : p = 0 := by
    have := hcombo.2
    linarith
  have h1 : (1 + 2 * (n : ℚ)) = 0 := by
    have := hcombo.1
    rw [hp0] at this
    linarith
  have h2 : (1 + 2 * n : ℤ) = 0 := by exact_mod_cast h1
  omega

theorem M3.mulVec_mulVec (a b : M3) (v : V3) :
    M3.mulVec a (M3.mulVec b v) = M3.mulVec (M3.mul a b) v := by
  simp only [M3.mulVec, M3.mul, V3.mk.injEq]
  refine ⟨by ring, by ring, by ring⟩

theorem M3.one_mulVec (v : V3) : M3.mulVec M3.one v = v := by
  cases v
  simp only [M3.mulVec, M3.one, V3.mk.injEq]
  refine ⟨by ring, by ring, by ring⟩

theorem V3.sub_self (v : V3) : V3.sub v v = V3.zero := by
  simp only [V3.sub, V3.zero, V3.mk.injEq]
  refine ⟨by ring, by ring, by ring⟩

theorem M3.mulVec_zero (m : M3) : M3.mulVec m V3.zero = V3.zero := by
  simp only [M3.mulVec, V3.zero, V3.mk.injEq]
  refine ⟨by ring, by ring, by ring⟩

theorem Quat.conj_smul (c : ℚ) (q : Quat) :
    (Quat.smul c q).conj = Quat.smul c q.conj := by
  simp only [Quat.smul, Quat.conj, Quat.mk.injEq]
  refine ⟨by ring, by ring, by ring, by ring⟩

theorem Quat.mul_smul_smul (c d : ℚ) (p q : Quat) :
    Quat.mul (Quat.smul c p) (Quat.smul d q) = Quat.smul (c * d) (Quat.mul p q) := by
  simp only [Quat.mul, Quat.smul, Quat.mk.injEq]
  refine ⟨by ring, by ring, by ring, by ring⟩

theorem getCols_length {row : List ℚ} {cols : List ℕ} {vs : List ℚ}
    (h : getCols row cols = some vs) : vs.length = cols.length := by
  induction cols generalizing vs with
  | nil =>
    simp only [getCols] at h
    cases h
    rfl
  | cons i rest ih =>
    simp only [getCols] at h
    cases hv : row[i]? with
    | none => rw [hv] at h; exact absurd h (by simp)
    | some v =>
      rw [hv] at h
      cases hrest : getCols row rest with
      | none => rw [hrest] at h; exact absurd h (by simp)
      | some ws =>
        rw [hrest] at h
        cases h
        simp [List.length_cons, ih hrest]

/-- C4: for every homogeneous transform with bottom row (0,0,0,1), invert_se3
returns exactly the matrix with the transposed rotation block, the negated
transposed rotation applied to the translation, and bottom row (0,0,0,1). -/
theorem invert_se3_closed_form (t : V3) (r : M3) :
    invert_se3 (transformation_to_se3 t r) =
      ⟨r.a11, r.a21, r.a31, -(r.a11 * t.x + r.a21 * t.y + r.a31 * t.z),
       r.a12, r.a22, r.a32, -(r.a12 * t.x + r.a22 * t.y + r.a32 * t.z),
       r.a13, r.a23, r.a33, -(r.a13 * t.x + r.a23 * t.y + r.a33 * t.z),
       0, 0, 0, 1⟩ :=
  rfl

/-- C1: for every trajectory relativized against its first pose, the output
translation of row i is the inverse of the reference rotation applied to the
global displacement of row i from the reference: it equals the transpose of
the reference rotation matrix applied to the displacement, and applying the
reference rotation to it recovers the displacement exactly. -/
theorem relativizer_translation (P0 : ℚ × V3 × Quat)
    (rest : List (ℚ × V3 × Quat)) (hq0 : P0.2.2.normSq = 1)
    (out : List (List ℚ))
    (hout : transform_data ((P0 :: rest).map fun P => mkRow P.1 P.2.1 P.2.2) 0
      [1, 2, 3] [4, 5, 6, 7] = some out)
    (i : ℕ) (Pi : ℚ × V3 × Quat) (hPi : (P0 :: rest)[i]? = some Pi)
    (row : List ℚ) (hrow : out[i]? = some row) :
    rowTrans row =
      M3.mulVec (M3.transpose (Quat.toMatrix P0.2.2)) (V3.sub Pi.2.1 P0.2.1) ∧
    M3.mulVec (Quat.toMatrix P0.2.2) (rowTrans row) = V3.sub Pi.2.1 P0.2.1 := by
  rw [transform_data_mkRows] at hout
  cases hout
  rw [List.getElem?_map, hPi] at hrow
  cases hrow
  have htr : rowTrans (relRow P0.2.1 P0.2.2 Pi) =
      compute_relative_position Pi.2.1 P0.2.1 P0.2.2 := rfl
  constructor
  · rw [htr]
    unfold compute_relative_position
    rw [Quat.toMatrix_scipyInv, Quat.toMatrix_conj hq0]
  · rw [htr]
    unfold compute_relative_position
    rw [Quat.toMatrix_scipyInv, Quat.toMatrix_conj hq0, M3.mulVec_mulVec,
      Quat.toMatrix_mul_transpose hq0, M3.one_mulVec]

/-- Witness for C1 at a concrete two-pose trajectory with a nontrivial unit
reference quaternion. -/
theorem relativizer_translation_witness :
    rowTrans (relRow ⟨0, 0, 0⟩ ⟨3/5, 0, 0, 4/5⟩ (1, ⟨1, 2, 3⟩, ⟨0, 0, 0, 1⟩)) =
      M3.mulVec (M3.transpose (Quat.toMatrix ⟨3/5, 0, 0, 4/5⟩))
        (V3.sub ⟨1, 2, 3⟩ ⟨0, 0, 0⟩) ∧
    M3.mulVec (Quat.toMatrix ⟨3/5, 0, 0, 4/5⟩)
        (rowTrans (relRow ⟨0, 0, 0⟩ ⟨3/5, 0, 0, 4/5⟩ (1, ⟨1, 2, 3⟩, ⟨0, 0, 0, 1⟩))) =
      V3.sub ⟨1, 2, 3⟩ ⟨0, 0, 0⟩ :=
  relativizer_translation (0, ⟨0, 0, 0⟩, ⟨3/5, 0, 0, 4/5⟩)
    [(1, ⟨1, 2, 3⟩, ⟨0, 0, 0, 1⟩)] (by norm_num [Quat.normSq])
    _ (transform_data_mkRows _ _) 1 _ rfl _ rfl

/-- C2 counterexample: on the two-row trajectory of identity quaternions the
program emits relative orientation (0,0,0,-1) for every row (scipy's inv
negates the scalar component, so the stored inverse of the reference is minus
its conjugate), while the composition qi with the inverse (conjugate) of q0
is (0,0,0,1): the emitted quaternion is not the claimed composition. -/
theorem relativizer_orientation_counterexample :
    transform_data ([((0 : ℚ), (⟨0, 0, 0⟩ : V3), (⟨0, 0, 0, 1⟩ : Quat)),
        (1, ⟨1, 0, 0⟩, ⟨0, 0, 0, 1⟩)].map fun P => mkRow P.1 P.2.1 P.2.2)
        0 [1, 2, 3] [4, 5, 6, 7] =
      some [[0, 0, 0, 0, 0, 0, 0, -1], [1, 1, 0, 0, 0, 0, 0, -1]] ∧
    Quat.mul ⟨0, 0, 0, 1⟩ (Quat.conj ⟨0, 0, 0, 1⟩) = (⟨0, 0, 0, 1⟩ : Quat) ∧
    (⟨0, 0, 0, -1⟩ : Quat) ≠ (⟨0, 0, 0, 1⟩ : Quat) := by
  refine ⟨?_, ?_, ?_⟩
  · rw [transform_data_mkRows]
    norm_num [relRow, compute_relative_position, compute_relative_orientation_q,
      Quat.toMatrix, quatMatN, Quat.normSq, Quat.scipyInv, Quat.mul, M3.smul,
      M3.mulVec, V3.sub]
  · norm_num [Quat.mul, Quat.conj]
  · simp only [ne_eq, Quat.mk.injEq]
    norm_num

/-- C2 as amended: for every trajectory relativized against its first pose,
the output orientation of row i is minus the Hamilton product of the row
quaternion with the conjugate (inverse) of the reference quaternion, because
scipy's Rotation.inv stores minus the conjugate; the emitted quaternion is
the product with the scipy inverse, has unit norm (so it is exactly what
as_quat returns), and its rotation matrix is still the row rotation times the
transpose of the reference rotation. -/
theorem relativizer_orientation (P0 : ℚ × V3 × Quat)
    (rest : List (ℚ × V3 × Quat)) (hq0 : P0.2.2.normSq = 1)
    (out : List (List ℚ))
    (hout : transform_data ((P0 :: rest).map fun P => mkRow P.1 P.2.1 P.2.2) 0
      [1, 2, 3] [4, 5, 6, 7] = some out)
    (i : ℕ) (Pi : ℚ × V3 × Quat) (hPi : (P0 :: rest)[i]? = some Pi)
    (hqi : Pi.2.2.normSq = 1)
    (row : List ℚ) (hrow : out[i]? = some row) :
    rowQuat row = Quat.mul Pi.2.2 (Quat.scipyInv P0.2.2) ∧
    rowQuat row = Quat.smul (-1) (Quat.mul Pi.2.2 (Quat.conj P0.2.2)) ∧
    (rowQuat row).normSq = 1 ∧
    (rowQuat row).toMatrix =
      M3.mul (Quat.toMatrix Pi.2.2) (M3.transpose (Quat.toMatrix P0.2.2)) := by
  rw [transform_data_mkRows] at hout
  cases hout
  rw [List.getElem?_map, hPi] at hrow
  cases hrow
  have hro : rowQuat (relRow P0.2.1 P0.2.2 Pi) =
      Quat.mul Pi.2.2 (Quat.scipyInv P0.2.2) := rfl
  have hns : (Quat.scipyInv P0.2.2).normSq = 1 := by
    rw [Quat.normSq_scipyInv, hq0]
  refine ⟨hro, ?_, ?_, ?_⟩
  · rw [hro, Quat.mul_scipyInv]
  · rw [hro, Quat.normSq_mul, hqi, hns]
    norm_num
  · rw [hro, Quat.toMatrix_mul hqi hns, Quat.toMatrix_scipyInv,
      Quat.toMatrix_conj hq0]

/-- Witness for C2 as amended at a concrete two-pose trajectory of unit
quaternions. -/
theorem relativizer_orientation_witness :
    rowQuat (relRow ⟨0, 0, 0⟩ ⟨3/5, 0, 0, 4/5⟩ (1, ⟨1, 2, 3⟩, ⟨0, 0, 0, 1⟩)) =
      Quat.mul ⟨0, 0, 0, 1⟩ (Quat.scipyInv ⟨3/5, 0, 0, 4/5⟩) ∧
    rowQuat (relRow ⟨0, 0, 0⟩ ⟨3/5, 0, 0, 4/5⟩ (1, ⟨1, 2, 3⟩, ⟨0, 0, 0, 1⟩)) =
      Quat.smul (-1) (Quat.mul ⟨0, 0, 0, 1⟩ (Quat.conj ⟨3/5, 0, 0, 4/5⟩)) ∧
    (rowQuat (relRow ⟨0, 0, 0⟩ ⟨3/5, 0, 0, 4/5⟩ (1, ⟨1, 2, 3⟩, ⟨0, 0, 0, 1⟩))).normSq = 1 ∧
    (rowQuat (relRow ⟨0, 0, 0⟩ ⟨3/5, 0, 0, 4/5⟩ (1, ⟨1, 2, 3⟩, ⟨0, 0, 0, 1⟩))).toMatrix =
      M3.mul (Quat.toMatrix ⟨0, 0, 0, 1⟩)
        (M3.transpose (Quat.toMatrix ⟨3/5, 0, 0, 4/5⟩)) :=
  relativizer_orientation (0, ⟨0, 0, 0⟩, ⟨3/5, 0, 0, 4/5⟩)
    [(1, ⟨1, 2, 3⟩, ⟨0, 0, 0, 1⟩)] (by norm_num [Quat.normSq])
    _ (transform_data_mkRows _ _) 1 _ rfl (by norm_num [Quat.normSq]) _ rfl

/-- C5 counterexample: an empty trajectory is not valid input (transform_data
indexes the first row unconditionally, IndexError in the source), and on a
valid singleton trajectory the emitted row-0 orientation is (0,0,0,-1), not
the claimed (0,0,0,1): scipy's inv negates the scalar component, so the
reference composed with its own inverse is stored and emitted as minus the
identity quaternion. -/
theorem relativizer_reference_counterexample :
    transform_data ([] : List (List ℚ)) 0 [1, 2, 3] [4, 5, 6, 7] = none ∧
    transform_data ([((2 : ℚ), (⟨4, 5, 6⟩ : V3), (⟨0, 0, 0, 1⟩ : Quat))].map
        fun P => mkRow P.1 P.2.1 P.2.2) 0 [1, 2, 3] [4, 5, 6, 7] =
      some [[2, 0, 0, 0, 0, 0, 0, -1]] ∧
    (⟨0, 0, 0, -1⟩ : Quat) ≠ (⟨0, 0, 0, 1⟩ : Quat) := by
  refine ⟨rfl, ?_, ?_⟩
  · rw [transform_data_mkRows]
    norm_num [relRow, compute_relative_position, compute_relative_orientation_q,
      Quat.toMatrix, quatMatN, Quat.normSq, Quat.scipyInv, Quat.mul, M3.smul,
      M3.mulVec, V3.sub]
  · simp only [ne_eq, Quat.mk.injEq]
    norm_num

/-- C5 as amended: for every nonempty trajectory whose reference carries a
unit quaternion, row 0 of the relativized output is exactly time, zero
translation and the quaternion (0,0,0,-1) — minus the identity quaternion,
representing the identity rotation; in particular a trajectory of length 1 is
valid and maps its only pose to the reference row, while a trajectory of
length 0 is rejected. -/
theorem relativizer_reference_row (P0 : ℚ × V3 × Quat)
    (rest : List (ℚ × V3 × Quat)) (hq0 : P0.2.2.normSq = 1)
    (out : List (List ℚ))
    (hout : transform_data ((P0 :: rest).map fun P => mkRow P.1 P.2.1 P.2.2) 0
      [1, 2, 3] [4, 5, 6, 7] = some out)
    (row : List ℚ) (hrow : out[0]? = some row) :
    row = [P0.1, 0, 0, 0, 0, 0, 0, -1] ∧
    (rowQuat row).toMatrix = M3.one ∧
    transform_data [mkRow P0.1 P0.2.1 P0.2.2] 0 [1, 2, 3] [4, 5, 6, 7] =
      some [[P0.1, 0, 0, 0, 0, 0, 0, -1]] := by
  have hrel : relRow P0.2.1 P0.2.2 P0 = [P0.1, 0, 0, 0, 0, 0, 0, -1] := by
    have hp : compute_relative_position P0.2.1 P0.2.1 P0.2.2 = V3.zero := by
      unfold compute_relative_position
      rw [V3.sub_self, M3.mulVec_zero]
    have ho : compute_relative_orientation_q P0.2.2 P0.2.2 = ⟨0, 0, 0, -1⟩ :=
      Quat.mul_scipyInv_unit hq0
    simp only [relRow, hp, ho, V3.zero]
  have hrow' : row = [P0.1, 0, 0, 0, 0, 0, 0, -1] := by
    rw [transform_data_mkRows] at hout
    cases hout
    rw [List.getElem?_map] at hrow
    simp only [List.getElem?_cons_zero, Option.map_some'] at hrow
    cases hrow
    exact hrel
  refine ⟨hrow', ?_, ?_⟩
  · rw [hrow']
    have hq : rowQuat [P0.1, 0, 0, 0, 0, 0, 0, -1] = ⟨0, 0, 0, -1⟩ := rfl
    rw [hq, Quat.toMatrix_unit (by norm_num [Quat.normSq])]
    simp only [quatMatN, M3.one, M3.mk.injEq]
    norm_num
  · have h := transform_data_mkRows P0 []
    simp only [List.map_cons, List.map_nil, hrel] at h
    exact h

/-- Witness for C5 as amended: a singleton trajectory with a nontrivial unit
quaternion. -/
theorem relativizer_reference_row_witness :
    relRow ⟨4, 5, 6⟩ ⟨3/5, 0, 0, 4/5⟩ (2, ⟨4, 5, 6⟩, ⟨3/5, 0, 0, 4/5⟩) =
        [2, 0, 0, 0, 0, 0, 0, -1] ∧
    (rowQuat (relRow ⟨4, 5, 6⟩ ⟨3/5, 0, 0, 4/5⟩
        (2, ⟨4, 5, 6⟩, ⟨3/5, 0, 0, 4/5⟩))).toMatrix = M3.one ∧
    transform_data [mkRow 2 ⟨4, 5, 6⟩ ⟨3/5, 0, 0, 4/5⟩] 0 [1, 2, 3] [4, 5, 6, 7] =
      some [[2, 0, 0, 0, 0, 0, 0, -1]] :=
  relativizer_reference_row (2, ⟨4, 5, 6⟩, ⟨3/5, 0, 0, 4/5⟩) []
    (by norm_num [Quat.normSq]) _ (transform_data_mkRows _ _) _ rfl

/-- C9: for every relativized trajectory, row i keeps its own timestamp, and
the reference timestamp has no influence: changing the reference row's time
leaves every other output row unchanged, and compute_relative_time discards
its second argument. -/
theorem relativizer_time (t0 t0' : ℚ) (p0 : V3) (q0 : Quat)
    (rest : List (ℚ × V3 × Quat)) (out out' : List (List ℚ))
    (hout : transform_data (((t0, p0, q0) :: rest).map fun P => mkRow P.1 P.2.1 P.2.2)
      0 [1, 2, 3] [4, 5, 6, 7] = some out)
    (hout' : transform_data (((t0', p0, q0) :: rest).map fun P => mkRow P.1 P.2.1 P.2.2)
      0 [1, 2, 3] [4, 5, 6, 7] = some out') :
    (∀ (i : ℕ) (Pi : ℚ × V3 × Quat) (row : List ℚ),
      ((t0, p0, q0) :: rest)[i]? = some Pi → out[i]? = some row →
      rowTime row = Pi.1) ∧
    out.tail = out'.tail ∧
    (∀ t s : ℚ, compute_relative_time t s = t) := by
  rw [transform_data_mkRows] at hout hout'
  cases hout
  cases hout'
  refine ⟨?_, by simp, fun t s => rfl⟩
  intro i Pi row hPi hrow
  rw [List.getElem?_map, hPi] at hrow
  cases hrow
  rfl

/-- Witness for C9 at a concrete two-pose trajectory with two different
reference timestamps. -/
theorem relativizer_time_witness :
    (∀ (i : ℕ) (Pi : ℚ × V3 × Quat) (row : List ℚ),
      ((5, (⟨0, 0, 0⟩ : V3), (⟨0, 0, 0, 1⟩ : Quat)) :: [(7, ⟨1, 0, 0⟩, ⟨0, 0, 0, 1⟩)])[i]? = some Pi →
      (((5, (⟨0, 0, 0⟩ : V3), (⟨0, 0, 0, 1⟩ : Quat)) :: [(7, ⟨1, 0, 0⟩, ⟨0, 0, 0, 1⟩)]).map
        (relRow ⟨0, 0, 0⟩ ⟨0, 0, 0, 1⟩))[i]? = some row →
      rowTime row = Pi.1) ∧
    (((5, (⟨0, 0, 0⟩ : V3), (⟨0, 0, 0, 1⟩ : Quat)) :: [(7, ⟨1, 0, 0⟩, ⟨0, 0, 0, 1⟩)]).map
        (relRow ⟨0, 0, 0⟩ ⟨0, 0, 0, 1⟩)).tail =
      (((9, (⟨0, 0, 0⟩ : V3), (⟨0, 0, 0, 1⟩ : Quat)) :: [(7, ⟨1, 0, 0⟩, ⟨0, 0, 0, 1⟩)]).map
        (relRow ⟨0, 0, 0⟩ ⟨0, 0, 0, 1⟩)).tail ∧
    (∀ t s : ℚ, compute_relative_time t s = t) :=
  relativizer_time 5 9 ⟨0, 0, 0⟩ ⟨0, 0, 0, 1⟩ [(7, ⟨1, 0, 0⟩, ⟨0, 0, 0, 1⟩)]
    _ _ (transform_data_mkRows _ _) (transform_data_mkRows _ _)

theorem rotBlock_mul_to_se3 (t1 t2 : V3) (r1 r2 : M3) :
    (multiply_se3 (transformation_to_se3 t1 r1) (transformation_to_se3 t2 r2)).rotBlock =
      M3.mul r1 r2 := by
  rw [multiply_se3_to_se3, rotBlock_to_se3]

/-- Rotation block of the per-row output transform of the compositor, when
the extrinsic rotation comes from a unit quaternion: it is the matrix of the
quaternion product of the row quaternion with the conjugate extrinsic
quaternion. -/
theorem compositor_rotBlock (p ct : V3) (qi cq : Quat) (hqi : qi.normSq = 1)
    (hcq : cq.normSq = 1) :
    (multiply_se3 (transformation_to_se3 p (Quat.toMatrix qi))
        (invert_se3 (transformation_to_se3 ct (Quat.toMatrix cq)))).rotBlock =
      Quat.toMatrix (Quat.mul qi (Quat.conj cq)) := by
  have hconj : (Quat.conj cq).normSq = 1 := by rw [Quat.normSq_conj, hcq]
  have hinv : invert_se3 (transformation_to_se3 ct (Quat.toMatrix cq)) =
      transformation_to_se3
        (V3.neg (M3.mulVec (M3.transpose (Quat.toMatrix cq)) ct))
        (M3.transpose (Quat.toMatrix cq)) := rfl
  rw [hinv, rotBlock_mul_to_se3, ← Quat.toMatrix_conj hcq,
    ← Quat.toMatrix_mul hqi hconj]

/-- C3: for every trajectory of unit-quaternion transforms and every extrinsic
transform with unit-quaternion rotation, the compositor output has one row per
input row in the same order, and row i carries the time of input row i, the
translation block of the product of the row transform with the inverted
extrinsic, and a quaternion whose rotation matrix is exactly the rotation
block of that product. -/
theorem compositor_rows (ct : V3) (cq : Quat) (hcq : cq.normSq = 1)
    (ps : List (ℚ × V3 × Quat)) (hps : ∀ P ∈ ps, (P.2.2 : Quat).normSq = 1)
    (eulerM : ℚ → ℚ → ℚ → M3) (out : List (List ℚ))
    (hout : tcMain eulerM (transformation_to_se3 ct (Quat.toMatrix cq))
      (ps.map fun P => mkRow P.1 P.2.1 P.2.2) 0 [1, 2, 3] [4, 5, 6, 7] "quat" =
      some out) :
    out.length = ps.length ∧
    ∀ (i : ℕ) (Pi : ℚ × V3 × Quat) (row : List ℚ), ps[i]? = some Pi →
      out[i]? = some row →
      row.length = 8 ∧
      rowTime row = Pi.1 ∧
      rowTrans row =
        (multiply_se3 (transformation_to_se3 Pi.2.1 (Quat.toMatrix Pi.2.2))
          (invert_se3 (transformation_to_se3 ct (Quat.toMatrix cq)))).transBlock ∧
      (rowQuat row).toMatrix =
        (multiply_se3 (transformation_to_se3 Pi.2.1 (Quat.toMatrix Pi.2.2))
          (invert_se3 (transformation_to_se3 ct (Quat.toMatrix cq)))).rotBlock := by
  rw [tcMain_mkRows] at hout
  cases hout
  refine ⟨List.length_map _ _, ?_⟩
  intro i Pi row hPi hrow
  rw [List.getElem?_map, hPi] at hrow
  cases hrow
  have hqi : Pi.2.2.normSq = 1 := hps Pi (List.getElem?_mem hPi)
  have hu : (Quat.mul Pi.2.2 (Quat.conj cq)).normSq = 1 := by
    rw [Quat.normSq_mul, Quat.normSq_conj, hqi, hcq]
    norm_num
  refine ⟨rfl, rfl, rfl, ?_⟩
  have hq : rowQuat (tcOutRow (invert_se3 (transformation_to_se3 ct (Quat.toMatrix cq))) Pi) =
      matrixToQuatRaw
        (multiply_se3 (transformation_to_se3 Pi.2.1 (Quat.toMatrix Pi.2.2))
          (invert_se3 (transformation_to_se3 ct (Quat.toMatrix cq)))).rotBlock := rfl
  rw [hq, compositor_rotBlock Pi.2.1 ct Pi.2.2 cq hqi hcq,
    toMatrix_matrixToQuatRaw hu]

/-- Witness for C3 at a concrete one-row trajectory and a nontrivial unit
extrinsic quaternion, row 0. -/
theorem compositor_rows_witness :
    (tcOutRow (invert_se3 (transformation_to_se3 ⟨7, 8, 9⟩ (Quat.toMatrix ⟨3/5, 0, 0, 4/5⟩)))
        (0, ⟨1, 2, 3⟩, ⟨0, 0, 0, 1⟩)).length = 8 ∧
    rowTime (tcOutRow (invert_se3 (transformation_to_se3 ⟨7, 8, 9⟩ (Quat.toMatrix ⟨3/5, 0, 0, 4/5⟩)))
        (0, ⟨1, 2, 3⟩, ⟨0, 0, 0, 1⟩)) = 0 ∧
    rowTrans (tcOutRow (invert_se3 (transformation_to_se3 ⟨7, 8, 9⟩ (Quat.toMatrix ⟨3/5, 0, 0, 4/5⟩)))
        (0, ⟨1, 2, 3⟩, ⟨0, 0, 0, 1⟩)) =
      (multiply_se3 (transformation_to_se3 ⟨1, 2, 3⟩ (Quat.toMatrix ⟨0, 0, 0, 1⟩))
        (invert_se3 (transformation_to_se3 ⟨7, 8, 9⟩ (Quat.toMatrix ⟨3/5, 0, 0, 4/5⟩)))).transBlock ∧
    (rowQuat (tcOutRow (invert_se3 (transformation_to_se3 ⟨7, 8, 9⟩ (Quat.toMatrix ⟨3/5, 0, 0, 4/5⟩)))
        (0, ⟨1, 2, 3⟩, ⟨0, 0, 0, 1⟩))).toMatrix =
      (multiply_se3 (transformation_to_se3 ⟨1, 2, 3⟩ (Quat.toMatrix ⟨0, 0, 0, 1⟩))
        (invert_se3 (transformation_to_se3 ⟨7, 8, 9⟩ (Quat.toMatrix ⟨3/5, 0, 0, 4/5⟩)))).rotBlock :=
  (compositor_rows ⟨7, 8, 9⟩ ⟨3/5, 0, 0, 4/5⟩ (by norm_num [Quat.normSq])
    [(0, ⟨1, 2, 3⟩, ⟨0, 0, 0, 1⟩)]
    (by
      intro P hP
      simp only [List.mem_singleton] at hP
      subst hP
      norm_num [Quat.normSq])
    (fun _ _ _ => M3.one) _ (tcMain_mkRows _ _ _)).2 0 _ _ rfl rfl

/-- C6: when the extrinsic constant is the identity transform, every output
row of the compositor equals its input row exactly: same time, identical
translation, and an output quaternion representing exactly the input
rotation. -/
theorem compositor_identity_extrinsic (ps : List (ℚ × V3 × Quat))
    (hps : ∀ P ∈ ps, (P.2.2 : Quat).normSq = 1)
    (eulerM : ℚ → ℚ → ℚ → M3) (out : List (List ℚ))
    (hout : tcMain eulerM idSE3 (ps.map fun P => mkRow P.1 P.2.1 P.2.2) 0
      [1, 2, 3] [4, 5, 6, 7] "quat" = some out) :
    out.length = ps.length ∧
    ∀ (i : ℕ) (Pi : ℚ × V3 × Quat) (row : List ℚ), ps[i]? = some Pi →
      out[i]? = some row →
      rowTime row = Pi.1 ∧
      rowTrans row = Pi.2.1 ∧
      (rowQuat row).toMatrix = Quat.toMatrix Pi.2.2 := by
  rw [tcMain_mkRows] at hout
  cases hout
  refine ⟨List.length_map _ _, ?_⟩
  intro i Pi row hPi hrow
  rw [List.getElem?_map, hPi] at hrow
  cases hrow
  have hqi : Pi.2.2.normSq = 1 := hps Pi (List.getElem?_mem hPi)
  have hmul : multiply_se3 (transformation_to_se3 Pi.2.1 (Quat.toMatrix Pi.2.2))
      (invert_se3 idSE3) = transformation_to_se3 Pi.2.1 (Quat.toMatrix Pi.2.2) := by
    rw [invert_se3_id, multiply_se3_id]
  refine ⟨rfl, ?_, ?_⟩
  · have ht : rowTrans (tcOutRow (invert_se3 idSE3) Pi) =
        (multiply_se3 (transformation_to_se3 Pi.2.1 (Quat.toMatrix Pi.2.2))
          (invert_se3 idSE3)).transBlock := rfl
    rw [ht, hmul, transBlock_to_se3]
  · have hq : rowQuat (tcOutRow (invert_se3 idSE3) Pi) =
        matrixToQuatRaw (multiply_se3 (transformation_to_se3 Pi.2.1 (Quat.toMatrix Pi.2.2))
          (invert_se3 idSE3)).rotBlock := rfl
    rw [hq, hmul, rotBlock_to_se3, toMatrix_matrixToQuatRaw hqi]

/-- Witness for C6 at a concrete one-row trajectory with a nontrivial unit
quaternion. -/
theorem compositor_identity_extrinsic_witness :
    rowTime (tcOutRow (invert_se3 idSE3) (3, ⟨1, 2, 3⟩, ⟨3/5, 0, 0, 4/5⟩)) = 3 ∧
    rowTrans (tcOutRow (invert_se3 idSE3) (3, ⟨1, 2, 3⟩, ⟨3/5, 0, 0, 4/5⟩)) = ⟨1, 2, 3⟩ ∧
    (rowQuat (tcOutRow (invert_se3 idSE3) (3, ⟨1, 2, 3⟩, ⟨3/5, 0, 0, 4/5⟩))).toMatrix =
      Quat.toMatrix ⟨3/5, 0, 0, 4/5⟩ :=
  (compositor_identity_extrinsic [(3, ⟨1, 2, 3⟩, ⟨3/5, 0, 0, 4/5⟩)]
    (by
      intro P hP
      simp only [List.mem_singleton] at hP
      subst hP
      norm_num [Quat.normSq])
    (fun _ _ _ => M3.one) _ (tcMain_mkRows _ _ _)).2 0 _ _ rfl rfl

/-- C7 counterexample: a trajectory whose quaternions are the non-unit
(0,0,0,2) produces exactly the same translations as the trajectory with the
unit-normalized quaternion (0,0,0,1), and its raw orientation output
(0,0,0,-4) is the positive multiple 4 of the unit trajectory's orientation
output (0,0,0,-1), so after scipy's final normalization the emitted
quaternions are also identical: the pipeline behaves as if the quaternion had
been replaced by its unit-normalized equivalent, because from_quat
normalizes. -/
theorem relativizer_scale_counterexample :
    transform_data ([((0 : ℚ), (⟨0, 0, 0⟩ : V3), (⟨0, 0, 0, 2⟩ : Quat)),
        (1, ⟨1, 0, 0⟩, ⟨0, 0, 0, 2⟩)].map fun P => mkRow P.1 P.2.1 P.2.2)
        0 [1, 2, 3] [4, 5, 6, 7] =
      some [[0, 0, 0, 0, 0, 0, 0, -4], [1, 1, 0, 0, 0, 0, 0, -4]] ∧
    transform_data ([((0 : ℚ), (⟨0, 0, 0⟩ : V3), (⟨0, 0, 0, 1⟩ : Quat)),
        (1, ⟨1, 0, 0⟩, ⟨0, 0, 0, 1⟩)].map fun P => mkRow P.1 P.2.1 P.2.2)
        0 [1, 2, 3] [4, 5, 6, 7] =
      some [[0, 0, 0, 0, 0, 0, 0, -1], [1, 1, 0, 0, 0, 0, 0, -1]] ∧
    Quat.smul 4 ⟨0, 0, 0, -1⟩ = (⟨0, 0, 0, -4⟩ : Quat) ∧
    (⟨0, 0, 0, -1⟩ : Quat).normSq = 1 := by
  refine ⟨?_, ?_, ?_, ?_⟩
  · rw [transform_data_mkRows]
    norm_num [relRow, compute_relative_position, compute_relative_orientation_q,
      Quat.toMatrix, quatMatN, Quat.normSq, Quat.scipyInv, Quat.mul, M3.smul,
      M3.mulVec, V3.sub]
  · rw [transform_data_mkRows]
    norm_num [relRow, compute_relative_position, compute_relative_orientation_q,
      Quat.toMatrix, quatMatN, Quat.normSq, Quat.scipyInv, Quat.mul, M3.smul,
      M3.mulVec, V3.sub]
  · norm_num [Quat.smul]
  · norm_num [Quat.normSq]

/-- C7 as amended: scipy's from_quat normalizes every ingested quaternion, so
the relativizer's results are invariant under positive rescaling of the input
quaternions: the relative translation is unchanged and the raw relative
orientation scales by the positive factor, i.e. normalizes to the same emitted
quaternion. -/
theorem relativizer_scale_invariance (current origin : V3) (qc q0 : Quat)
    (c d : ℚ) (hc : 0 < c) (hd : 0 < d) :
    compute_relative_position current origin (Quat.smul c q0) =
      compute_relative_position current origin q0 ∧
    compute_relative_orientation_q (Quat.smul c qc) (Quat.smul d q0) =
      Quat.smul (c * d) (compute_relative_orientation_q qc q0) := by
  constructor
  · unfold compute_relative_position
    rw [Quat.scipyInv_smul, Quat.toMatrix_smul c (ne_of_gt hc)]
  · unfold compute_relative_orientation_q
    rw [Quat.scipyInv_smul, Quat.mul_smul_smul]

/-- Witness for C7 as amended at concrete scales 2 and 3. -/
theorem relativizer_scale_invariance_witness :
    compute_relative_position ⟨1, 0, 0⟩ ⟨0, 0, 0⟩ (Quat.smul 2 ⟨3/5, 0, 0, 4/5⟩) =
      compute_relative_position ⟨1, 0, 0⟩ ⟨0, 0, 0⟩ ⟨3/5, 0, 0, 4/5⟩ ∧
    compute_relative_orientation_q (Quat.smul 2 ⟨0, 0, 0, 1⟩) (Quat.smul 3 ⟨3/5, 0, 0, 4/5⟩) =
      Quat.smul (2 * 3) (compute_relative_orientation_q ⟨0, 0, 0, 1⟩ ⟨3/5, 0, 0, 4/5⟩) :=
  relativizer_scale_invariance ⟨1, 0, 0⟩ ⟨0, 0, 0⟩ ⟨0, 0, 0, 1⟩ ⟨3/5, 0, 0, 4/5⟩
    2 3 (by norm_num) (by norm_num)

/-- C8 counterexample: the global_to_world parser performs no dimension check;
with five orientation indices under quaternion encoding it silently returns a
pose carrying a five-component orientation instead of failing at parse time. -/
theorem gtw_parse_no_dimension_check :
    gtwParsePose [0, 1, 2, 3, 4, 5, 6, 7, 8] 0 [1, 2, 3] [4, 5, 6, 7, 8] "quat" =
      some (0, [1, 2, 3], [4, 5, 6, 7, 8]) :=
  rfl

/-- C8 as amended: the transform_coordinates parser does fail at parse time on
any orientation-index count other than four for quaternion encoding or three
for euler encoding (the tuple unpacking raises before a pose is produced), for
every euler conversion function; the global_to_world parser performs no such
check, and there the mismatch only surfaces downstream, when the relativizer
hands the mis-sized orientation to scipy, aborting the whole conversion. -/
theorem tc_parse_dimension_mismatch :
    (∀ (eulerM : ℚ → ℚ → ℚ → M3) (row : List ℚ) (timeCol : ℕ)
      (posCols orientCols : List ℕ), orientCols.length ≠ 4 →
      tcParsePose eulerM row timeCol posCols orientCols "quat" = none) ∧
    (∀ (eulerM : ℚ → ℚ → ℚ → M3) (row : List ℚ) (timeCol : ℕ)
      (posCols orientCols : List ℕ), orientCols.length ≠ 3 →
      tcParsePose eulerM row timeCol posCols orientCols "euler" = none) ∧
    transform_data [[0, 1, 2, 3, 4, 5, 6, 7, 8]] 0 [1, 2, 3] [4, 5, 6, 7, 8] = none := by
  refine ⟨?_, ?_, rfl⟩
  · intro eulerM row timeCol posCols orientCols h
    simp only [tcParsePose]
    cases hT : row[timeCol]? with
    | none => rfl
    | some t =>
      cases hP : getCols row posCols with
      | none => rfl
      | some pos =>
        dsimp only
        rw [if_pos trivial]
        cases hO : getCols row orientCols with
        | none => rfl
        | some ori =>
          have hlen := getCols_length hO
          rcases ori with _ | ⟨a, _ | ⟨b, _ | ⟨c, _ | ⟨d, _ | ⟨e, tl⟩⟩⟩⟩⟩
          · rfl
          · rfl
          · rfl
          · rfl
          · exfalso
            apply h
            rw [← hlen]
            rfl
          · rfl
  · intro eulerM row timeCol posCols orientCols h
    simp only [tcParsePose]
    cases hT : row[timeCol]? with
    | none => rfl
    | some t =>
      cases hP : getCols row posCols with
      | none => rfl
      | some pos =>
        dsimp only
        rw [if_neg (by decide), if_pos trivial]
        cases hO : getCols row orientCols with
        | none => rfl
        | some ori =>
          have hlen := getCols_length hO
          rcases ori with _ | ⟨a, _ | ⟨b, _ | ⟨c, _ | ⟨d, tl⟩⟩⟩⟩
          · rfl
          · rfl
          · rfl
          · exfalso
            apply h
            rw [← hlen]
            rfl
          · rfl

/-- Witness for C8 as amended, at a five-index quaternion layout and a
two-index euler layout. -/
theorem tc_parse_dimension_mismatch_witness :
    tcParsePose (fun _ _ _ => M3.one) [0, 1, 2, 3, 4, 5, 6, 7, 8] 0 [1, 2, 3]
      [4, 5, 6, 7, 8] "quat" = none ∧
    tcParsePose (fun _ _ _ => M3.one) [0, 1, 2, 3, 4, 5, 6, 7, 8] 0 [1, 2, 3]
      [4, 5] "euler" = none :=
  ⟨tc_parse_dimension_mismatch.1 (fun _ _ _ => M3.one) [0, 1, 2, 3, 4, 5, 6, 7, 8]
      0 [1, 2, 3] [4, 5, 6, 7, 8] (by norm_num),
   tc_parse_dimension_mismatch.2.1 (fun _ _ _ => M3.one) [0, 1, 2, 3, 4, 5, 6, 7, 8]
      0 [1, 2, 3] [4, 5] (by norm_num)⟩

/-- C10: the relativizer interprets euler-encoded angles as degrees while the
compositor's parser interprets the same tokens as radians, so every nonzero
euler row parses to two different rotations in the two pipelines; moreover
the relativizer's euler output branch emits the relative euler angles in
degrees, multiplying the radian angles of the relative rotation by 180 over
pi, the inverse of the ingestion scaling. -/
theorem euler_units_mismatch :
    (∀ r p y : ℚ, ¬(r = 0 ∧ p = 0 ∧ y = 0) →
      gtwEulerIngest r p y ≠ tcEulerIngest r p y) ∧
    (∀ (asEulerRad : Quat → ℝ × ℝ × ℝ) (qc q0 : Quat),
      compute_relative_orientation_euler asEulerRad qc q0 =
        ((asEulerRad (compute_relative_orientation_q qc q0)).1 * 180 / Real.pi,
         (asEulerRad (compute_relative_orientation_q qc q0)).2.1 * 180 / Real.pi,
         (asEulerRad (compute_relative_orientation_q qc q0)).2.2 * 180 / Real.pi)) ∧
    (∀ x : ℝ, x * Real.pi / 180 * 180 / Real.pi = x) := by
  refine ⟨?_, fun _ _ _ => rfl, ?_⟩
  · intro r p y h0 h
    rw [gtwEulerIngest_eq, tcEulerIngest_eq] at h
    have e31 : -Real.sin ((p : ℝ) * Real.pi / 180) = -Real.sin (p : ℝ) :=
      congrArg M3R.a31 h
    have hsin : Real.sin ((p : ℝ) * Real.pi / 180) = Real.sin (p : ℝ) := by
      linarith [e31]
    have e32 : Real.cos ((p : ℝ) * Real.pi / 180) * Real.sin ((r : ℝ) * Real.pi / 180) =
        Real.cos (p : ℝ) * Real.sin (r : ℝ) := congrArg M3R.a32 h
    have e33 : Real.cos ((p : ℝ) * Real.pi / 180) * Real.cos ((r : ℝ) * Real.pi / 180) =
        Real.cos (p : ℝ) * Real.cos (r : ℝ) := congrArg M3R.a33 h
    have e11 : Real.cos ((y : ℝ) * Real.pi / 180) * Real.cos ((p : ℝ) * Real.pi / 180) =
        Real.cos (y : ℝ) * Real.cos (p : ℝ) := congrArg M3R.a11 h
    have e21 : Real.sin ((y : ℝ) * Real.pi / 180) * Real.cos ((p : ℝ) * Real.pi / 180) =
        Real.sin (y : ℝ) * Real.cos (p : ℝ) := congrArg M3R.a21 h
    have hsq : Real.cos ((p : ℝ) * Real.pi / 180) ^ 2 = Real.cos (p : ℝ) ^ 2 := by
      calc Real.cos ((p : ℝ) * Real.pi / 180) ^ 2
          = (Real.cos ((p : ℝ) * Real.pi / 180) * Real.sin ((r : ℝ) * Real.pi / 180)) ^ 2 +
            (Real.cos ((p : ℝ) * Real.pi / 180) * Real.cos ((r : ℝ) * Real.pi / 180)) ^ 2 := by
            linear_combination (-Real.cos ((p : ℝ) * Real.pi / 180) ^ 2) *
              Real.sin_sq_add_cos_sq ((r : ℝ) * Real.pi / 180)
        _ = (Real.cos (p : ℝ) * Real.sin (r : ℝ)) ^ 2 +
            (Real.cos (p : ℝ) * Real.cos (r : ℝ)) ^ 2 := by rw [e32, e33]
        _ = Real.cos (p : ℝ) ^ 2 := by
            linear_combination (Real.cos (p : ℝ) ^ 2) * Real.sin_sq_add_cos_sq (r : ℝ)
    have hfac : (Real.cos ((p : ℝ) * Real.pi / 180) - Real.cos (p : ℝ)) *
        (Real.cos ((p : ℝ) * Real.pi / 180) + Real.cos (p : ℝ)) = 0 := by
      linear_combination hsq
    have hp : p = 0 := by
      rcases mul_eq_zero.mp hfac with hA | hB
      · exact deg_rad_angle_eq (by linarith) hsin
      · exact (deg_rad_angle_sup (by linarith) hsin).elim
    rw [hp] at e32 e33 e11 e21
    simp only [Rat.cast_zero, zero_mul, zero_div, Real.cos_zero, one_mul,
      mul_one] at e32 e33 e11 e21
    exact h0 ⟨deg_rad_angle_eq e33 e32, hp, deg_rad_angle_eq e11 e21⟩
  · intro x
    have hpi := Real.pi_ne_zero
    field_simp

/-- Witness for C10: the pitch-only euler row (0, 45, 0), a concrete emission
instance, and the round trip of the scalings at 2. -/
theorem euler_units_mismatch_witness :
    gtwEulerIngest 0 45 0 ≠ tcEulerIngest 0 45 0 ∧
    compute_relative_orientation_euler (fun _ => (1, 2, 3)) ⟨0, 0, 0, 1⟩ ⟨0, 0, 0, 1⟩ =
      (1 * 180 / Real.pi, 2 * 180 / Real.pi, 3 * 180 / Real.pi) ∧
    (2 : ℝ) * Real.pi / 180 * 180 / Real.pi = 2 :=
  ⟨euler_units_mismatch.1 0 45 0 (by norm_num),
   euler_units_mismatch.2.1 (fun _ => (1, 2, 3)) ⟨0, 0, 0, 1⟩ ⟨0, 0, 0, 1⟩,
   euler_units_mismatch.2.2 2⟩
